import Mathlib

/-!
Shallow embedding of the QueueCTL job queue (Python sources under
`queuectl/`): the job data model (`models.py`), the SQLite-backed store
(`database.py`), the queue manager (`queue_manager.py`) and the worker's
reaper threshold (`worker.py`).

Timestamps are modelled as natural numbers of seconds (the code stores
ISO-8601 UTC strings whose lexicographic order agrees with chronological
order).  Free-form text (commands, captured output, error messages) is
modelled as `List Char`, matching Python `str` as a sequence of code
points.  The database's `jobs` table is modelled as a `List Job`; SQL
statements are translated row-by-row.
-/

namespace QueueCTL

/-- The `JobState` enum from `models.py`: the five-valued state enum. -/
inductive JobState where
  | pending
  | processing
  | completed
  | failed
  | dead
deriving DecidableEq

/-- The `Job` dataclass of `models.py` / a row of the `jobs` table.
`max_retries` is always concrete here (the dataclass defaults it to 3;
the enqueue-time fill from config applies before any job reaches the
store, so stored jobs always carry a value). -/
structure Job where
  id : String
  command : List Char
  state : JobState
  attempts : Nat
  maxRetries : Nat
  createdAt : Nat
  updatedAt : Nat
  errorMessage : Option (List Char)
  nextRetryAt : Option Nat
  completedAt : Option Nat
  priority : Int
  runAt : Option Nat
  timeoutSeconds : Option Nat
  lastStdout : Option (List Char)
  lastStderr : Option (List Char)
  durationMs : Option Nat
deriving DecidableEq

/-- The `Config` dataclass of `models.py`.  `worker_poll_interval` is a
Python float; it is modelled as a rational. -/
structure Config where
  maxRetries : Nat
  backoffBase : Nat
  workerPollInterval : ℚ
  defaultTimeoutSeconds : Nat

/-- Truncation of captured output in `QueueManager.execute_job`:
`(result.stdout or '')[:4000]` — the first 4000 characters. -/
def truncOut (s : List Char) : List Char := s.take 4000

/-- UTF-8 byte length of a Python string once stored as SQLite TEXT. -/
def utf8Len (s : List Char) : Nat := (s.map Char.utf8Size).sum

/-- The effective subprocess timeout in `execute_job`:
`job.timeout_seconds if job.timeout_seconds is not None else
config.default_timeout_seconds`. -/
def effTimeout (cfg : Config) (j : Job) : Nat :=
  j.timeoutSeconds.getD cfg.defaultTimeoutSeconds

/-- The fallback error message `f"Command exited with code ..."`. -/
def exitCodeMsg (code : Int) : List Char :=
  ("Command exited with code " ++ toString code).toList

/-- The timeout error message `f"Job execution timed out (...s)"`. -/
def timeoutMsg (t : Nat) : List Char :=
  ("Job execution timed out (" ++ toString t ++ "s)").toList

/-- Outcome of the `subprocess.run` call in `execute_job`: normal exit
with a code and captured streams, `subprocess.TimeoutExpired`,
`FileNotFoundError`, or any other exception. -/
inductive ExecOutcome where
  | exited (code : Int) (stdout stderr : List Char)
  | timedOut
  | spawnFailed
  | raised (msg : List Char)
deriving DecidableEq

/-- Model of `QueueManager._handle_job_failure`: bump `attempts`, record the
message, then either move to the DLQ (`attempts >= max_retries`) or
schedule a retry at `now + backoff_base ** attempts`. -/
def handle_job_failure (cfg : Config) (now : Nat) (j : Job) (msg : List Char) : Job :=
  let j1 : Job := { j with attempts := j.attempts + 1, errorMessage := some msg, updatedAt := now }
  if j1.attempts ≥ j1.maxRetries then
    { j1 with state := JobState.dead, nextRetryAt := none }
  else
    { j1 with state := JobState.failed,
              nextRetryAt := some (now + cfg.backoffBase ^ j1.attempts) }

/-- Model of `QueueManager.execute_job`, parameterised by the subprocess outcome.
Returns the boolean result together with the job record that the method
passes to `save_job` (directly on success, via `_handle_job_failure` on
every failure path). -/
def execute_job (cfg : Config) (now : Nat) (j : Job) (out : ExecOutcome) (dur : Nat) :
    Bool × Job :=
  match out with
  | ExecOutcome.exited code so se =>
      let so' := truncOut so
      let se' := truncOut se
      if code = 0 then
        (true, { j with state := JobState.completed, completedAt := some now,
                        errorMessage := none, lastStdout := some so',
                        lastStderr := some se', durationMs := some dur })
      else
        let msg := if se' ≠ [] then se' else if so' ≠ [] then so' else exitCodeMsg code
        let j1 : Job := { j with lastStdout := some so', lastStderr := some se',
                                 durationMs := some dur }
        (false, handle_job_failure cfg now j1 msg)
  | ExecOutcome.timedOut =>
      (false, handle_job_failure cfg now j (timeoutMsg (effTimeout cfg j)))
  | ExecOutcome.spawnFailed =>
      (false, handle_job_failure cfg now j ("Command not found".toList))
  | ExecOutcome.raised msg =>
      (false, handle_job_failure cfg now j msg)

/-- Model of `Database.save_job`: `INSERT OR REPLACE` keyed on the primary key
`id` — replace every row carrying the job's id, or append when absent. -/
def save_job (db : List Job) (j : Job) : List Job :=
  if db.any (fun x => x.id == j.id) then
    db.map (fun x => if x.id == j.id then j else x)
  else
    db ++ [j]

/-- Model of `Database.get_job`: point lookup by id. -/
def get_job (db : List Job) (jid : String) : Option Job :=
  db.find? (fun x => x.id == jid)

/-- Model of `QueueManager.enqueue_job`: reject when a job with the same id
already exists, else persist through the store.  (The config fill of an
unset `max_retries` is elided: modelled jobs always carry a concrete
`max_retries`, mirroring the dataclass default.) -/
def enqueue_job (db : List Job) (j : Job) : Except (List Char) (List Job) :=
  match get_job db j.id with
  | some _ => Except.error ("Job with given id already exists".toList)
  | none => Except.ok (save_job db j)

/-- Eligibility filter of the claim query in `Database.get_pending_job`:
`state = pending AND (run_at IS NULL OR run_at <= now)`. -/
def eligible (now : Nat) (j : Job) : Bool :=
  j.state == JobState.pending &&
    (match j.runAt with
     | none => true
     | some t => decide (t ≤ now))

/-- Strict version of the claim query's sort order
`ORDER BY priority DESC, created_at ASC`: `a` sorts strictly before `b`. -/
def jobBefore (a b : Job) : Bool :=
  b.priority < a.priority || (a.priority == b.priority && a.createdAt < b.createdAt)

/-- Model of `SELECT ... ORDER BY priority DESC, created_at ASC LIMIT 1`: keep a
running best row; ties beyond the two sort keys resolve to the earlier
row, matching SQLite's unspecified-but-deterministic scan order. -/
def pickBest (l : List Job) : Option Job :=
  l.foldl
    (fun acc j =>
      match acc with
      | none => some j
      | some b => if jobBefore j b then some j else some b)
    none

/-- The selection step of `Database.get_pending_job`. -/
def selectPendingRow (db : List Job) (now : Nat) : Option Job :=
  pickBest (db.filter (eligible now))

/-- The two column writes of the claim update:
`SET state = processing, updated_at = now`. -/
def markProcessing (now : Nat) (j : Job) : Job :=
  { j with state := JobState.processing, updatedAt := now }

/-- The conditional update of `get_pending_job`:
`UPDATE jobs SET state = processing, updated_at = ? WHERE id = ? AND
state = pending`, returning the new table and the affected row count. -/
def claimUpdate (db : List Job) (jid : String) (now : Nat) : List Job × Nat :=
  (db.map (fun x => if x.id == jid && x.state == JobState.pending then markProcessing now x else x),
   db.countP (fun x => x.id == jid && x.state == JobState.pending))

/-- The tail of `get_pending_job` after a row was selected: issue the
conditional update, and return nothing when it affected zero rows
(`cursor.rowcount == 0`), else the claimed job. -/
def claimAfterSelect (db : List Job) (row : Job) (now : Nat) : List Job × Option Job :=
  let r := claimUpdate db row.id now
  if r.2 = 0 then (r.1, none) else (r.1, some (markProcessing now row))

/-- Model of `Database.get_pending_job`: select the best eligible pending row,
then claim it with the CAS-by-state update. -/
def get_pending_job (db : List Job) (now : Nat) : List Job × Option Job :=
  match selectPendingRow db now with
  | none => (db, none)
  | some row => claimAfterSelect db row now

/-- Filter of `Database.get_retryable_jobs`:
`state = failed AND next_retry_at <= now` (a NULL `next_retry_at` fails
the SQL comparison). -/
def retryablePred (now : Nat) (j : Job) : Bool :=
  j.state == JobState.failed &&
    (match j.nextRetryAt with
     | none => false
     | some t => decide (t ≤ now))

/-- The `ORDER BY next_retry_at` key order of `get_retryable_jobs`. -/
def retryOrder (a b : Job) : Prop :=
  a.nextRetryAt.getD 0 ≤ b.nextRetryAt.getD 0

instance : DecidableRel retryOrder := fun a b => by
  unfold retryOrder; infer_instance

instance : IsTotal Job retryOrder :=
  ⟨fun a b => Nat.le_total (a.nextRetryAt.getD 0) (b.nextRetryAt.getD 0)⟩

instance : IsTrans Job retryOrder :=
  ⟨fun _ _ _ h1 h2 => Nat.le_trans h1 h2⟩

/-- Model of `Database.get_retryable_jobs`: failed rows whose retry time has
passed, ordered by `next_retry_at` ascending. -/
def get_retryable_jobs (db : List Job) (now : Nat) : List Job :=
  List.insertionSort retryOrder (db.filter (retryablePred now))

/-- The per-job promotion applied inside `QueueManager.process_retries`. -/
def promoteJob (now : Nat) (j : Job) : Job :=
  { j with state := JobState.pending, nextRetryAt := none, updatedAt := now }

/-- Model of `QueueManager.process_retries`: promote each retryable job back to
pending through `save_job`, counting the promotions. -/
def process_retries (db : List Job) (now : Nat) : List Job × Nat :=
  (get_retryable_jobs db now).foldl
    (fun acc j => (save_job acc.1 (promoteJob now j), acc.2 + 1))
    (db, 0)

/-- The field reset of `QueueManager.retry_dlq_job`. -/
def dlqReset (now : Nat) (j : Job) : Job :=
  { j with state := JobState.pending, attempts := 0, errorMessage := none,
           nextRetryAt := none, updatedAt := now }

/-- Model of `QueueManager.retry_dlq_job`: load the job; fail when missing or not
dead; otherwise reset it for retry and persist. -/
def retry_dlq_job (db : List Job) (now : Nat) (jid : String) : Bool × List Job :=
  match get_job db jid with
  | none => (false, db)
  | some j =>
      if j.state == JobState.dead then
        (true, save_job db (dlqReset now j))
      else
        (false, db)

/-- Staleness filter of `Database.reset_stale_processing_jobs`: a
processing row whose `updated_at` timestamp is at or below
`now - stale_seconds` (Python computes the threshold as a possibly
negative float, hence the integer subtraction). -/
def staleProc (now staleSeconds : Nat) (j : Job) : Bool :=
  j.state == JobState.processing &&
    decide ((j.updatedAt : Int) ≤ (now : Int) - (staleSeconds : Int))

/-- The per-row `UPDATE jobs SET state = pending, updated_at = now,
error_message = COALESCE(error_message, 'Recovered from stale
processing') WHERE id = ?` of the reaper. -/
def staleRecover (now : Nat) (j : Job) : Job :=
  { j with state := JobState.pending, updatedAt := now,
           errorMessage := some (j.errorMessage.getD ("Recovered from stale processing".toList)) }

/-- Model of `Database.reset_stale_processing_jobs`: collect the stale processing
rows, update each by id, and count the updates whose rowcount was
non-zero. -/
def reset_stale_processing_jobs (db : List Job) (now staleSeconds : Nat) : List Job × Nat :=
  (db.filter (staleProc now staleSeconds)).foldl
    (fun acc j =>
      (acc.1.map (fun x => if x.id == j.id then staleRecover now x else x),
       acc.2 + (if acc.1.any (fun x => x.id == j.id) then 1 else 0)))
    (db, 0)

/-- Python `int()` on a rational value: truncation toward zero. -/
def pyInt (q : ℚ) : Int :=
  if 0 ≤ q then ⌊q⌋ else -⌊-q⌋

/-- The stale threshold computed at worker startup in `Worker.run`:
`max(int(config.worker_poll_interval) * 120, 300)`. -/
def startupReapThreshold (cfg : Config) : Int :=
  max (pyInt cfg.workerPollInterval * 120) 300

/-- The stale threshold of the periodic (≈60 s) reap in `Worker.run`:
the same expression as at startup. -/
def periodicReapThreshold (cfg : Config) : Int :=
  max (pyInt cfg.workerPollInterval * 120) 300

/-- Boolean success test for a subprocess outcome: exited with code 0. -/
def ExecOutcome.isSuccess : ExecOutcome → Bool
  | ExecOutcome.exited c _ _ => c == 0
  | _ => false

/-! ### Sample records used by closed witnesses and counterexamples -/

/-- A default configuration record (the dataclass defaults). -/
def cfg0 : Config := { maxRetries := 3, backoffBase := 2, workerPollInterval := 1, defaultTimeoutSeconds := 300 }

/-- A sample job record. -/
def job0 : Job :=
  { id := "a", command := "true".toList, state := JobState.processing, attempts := 0,
    maxRetries := 3, createdAt := 0, updatedAt := 0, errorMessage := none,
    nextRetryAt := none, completedAt := none, priority := 0, runAt := none,
    timeoutSeconds := none, lastStdout := none, lastStderr := none, durationMs := none }

/-! ### Helper lemmas about the store primitives -/

theorem get_job_save_job_self (db : List Job) (k : Job) :
    get_job (save_job db k) k.id = some k := by
  unfold get_job save_job
  by_cases h : db.any (fun x => x.id == k.id)
  · rw [if_pos h]
    induction db with
    | nil => simp at h
    | cons x t ih =>
        by_cases hx : x.id == k.id
        · simp only [List.map_cons, if_pos hx]
          exact List.find?_cons_of_pos _ (by simp)
        · simp only [List.map_cons, if_neg hx]
          rw [List.find?_cons_of_neg _ (by simpa using hx)]
          apply ih
          simpa [List.any_cons, hx] using h
  · rw [if_neg h]
    rw [List.find?_append]
    have h1 : db.find? (fun x => x.id == k.id) = none := by
      rw [List.find?_eq_none]
      intro x hx hpx
      exact h (List.any_eq_true.mpr ⟨x, hx, hpx⟩)
    rw [h1]
    simp

theorem get_job_save_job_ne (db : List Job) (k : Job) (jid : String) (h : jid ≠ k.id) :
    get_job (save_job db k) jid = get_job db jid := by
  unfold get_job save_job
  by_cases hany : db.any (fun x => x.id == k.id)
  · rw [if_pos hany]
    induction db with
    | nil => rfl
    | cons x t ih =>
        by_cases hx : x.id == k.id
        · simp only [List.map_cons, if_pos hx]
          have hkj : ¬(k.id == jid) = true := by
            simp only [beq_iff_eq]
            exact Ne.symm h
          have hxj : ¬(x.id == jid) = true := by
            have hxid : x.id = k.id := by simpa using hx
            simp only [beq_iff_eq, hxid]
            exact Ne.symm h
          rw [@List.find?_cons_of_neg _ (fun y => y.id == jid) k _ hkj,
              @List.find?_cons_of_neg _ (fun y => y.id == jid) x _ hxj]
          by_cases ht : t.any (fun y => y.id == k.id)
          · exact ih ht
          · -- no further rows carry `k.id`: the map is the identity on `t`
            have hmap : t.map (fun y => if y.id == k.id then k else y) = t := by
              conv_rhs => rw [← List.map_id t]
              apply List.map_congr_left
              intro a ha
              have hna : ¬(a.id == k.id) = true := fun hpa =>
                ht (List.any_eq_true.mpr ⟨a, ha, hpa⟩)
              simp [hna]
            rw [hmap]
        · simp only [List.map_cons, if_neg hx]
          by_cases hpx : (x.id == jid)
          · rw [@List.find?_cons_of_pos _ (fun y => y.id == jid) x _ hpx,
                @List.find?_cons_of_pos _ (fun y => y.id == jid) x _ hpx]
          · rw [@List.find?_cons_of_neg _ (fun y => y.id == jid) x _ hpx,
                @List.find?_cons_of_neg _ (fun y => y.id == jid) x _ hpx]
            by_cases ht : t.any (fun y => y.id == k.id)
            · exact ih ht
            · have hmap : t.map (fun y => if y.id == k.id then k else y) = t := by
                conv_rhs => rw [← List.map_id t]
                apply List.map_congr_left
                intro a ha
                have hna : ¬(a.id == k.id) = true := fun hpa =>
                  ht (List.any_eq_true.mpr ⟨a, ha, hpa⟩)
                simp [hna]
              rw [hmap]
  · rw [if_neg hany, List.find?_append]
    have h2 : List.find? (fun x => x.id == jid) [k] = none := by
      have hkj : ¬(k.id == jid) = true := by
        simp only [beq_iff_eq]
        exact Ne.symm h
      rw [@List.find?_cons_of_neg _ (fun y => y.id == jid) k _ hkj]
      rfl
    rw [h2]
    cases db.find? (fun x => x.id == jid) <;> rfl

theorem get_job_id_eq (db : List Job) (jid : String) (j : Job)
    (h : get_job db jid = some j) : j.id = jid := by
  have := List.find?_some h
  simpa using this

/-! ### Behaviour of the failure handler -/

theorem handle_job_failure_fields (cfg : Config) (now : Nat) (j : Job) (msg : List Char) :
    (handle_job_failure cfg now j msg).attempts = j.attempts + 1 ∧
    (handle_job_failure cfg now j msg).errorMessage = some msg ∧
    (handle_job_failure cfg now j msg).id = j.id ∧
    (j.attempts + 1 ≥ j.maxRetries →
      (handle_job_failure cfg now j msg).state = JobState.dead ∧
      (handle_job_failure cfg now j msg).nextRetryAt = none) ∧
    (j.attempts + 1 < j.maxRetries →
      (handle_job_failure cfg now j msg).state = JobState.failed ∧
      (handle_job_failure cfg now j msg).nextRetryAt =
        some (now + cfg.backoffBase ^ (j.attempts + 1))) := by
  unfold handle_job_failure
  by_cases h : j.attempts + 1 ≥ j.maxRetries
  · rw [if_pos h]
    exact ⟨rfl, rfl, rfl, fun _ => ⟨rfl, rfl⟩, fun hlt => absurd h (by omega)⟩
  · rw [if_neg h]
    exact ⟨rfl, rfl, rfl, fun hge => absurd hge h, fun _ => ⟨rfl, rfl⟩⟩

/-- C2.  For every failing execution (non-zero exit, timeout, spawn
error, or other exception), the failure handler increments `attempts` by
exactly 1 and sets `error_message`; when the incremented `attempts` is
at least `max_retries` the job becomes `dead` with `next_retry_at`
cleared, otherwise it becomes `failed` with
`next_retry_at = now + backoff_base ^ attempts`, the exponent being the
post-increment value. -/
theorem failure_backoff_spec (cfg : Config) (now : Nat) (j : Job) (out : ExecOutcome)
    (dur : Nat) (hfail : out.isSuccess = false) :
    (execute_job cfg now j out dur).2.attempts = j.attempts + 1 ∧
    (execute_job cfg now j out dur).2.errorMessage ≠ none ∧
    (j.attempts + 1 ≥ j.maxRetries →
      (execute_job cfg now j out dur).2.state = JobState.dead ∧
      (execute_job cfg now j out dur).2.nextRetryAt = none) ∧
    (j.attempts + 1 < j.maxRetries →
      (execute_job cfg now j out dur).2.state = JobState.failed ∧
      (execute_job cfg now j out dur).2.nextRetryAt =
        some (now + cfg.backoffBase ^ (j.attempts + 1))) := by
  cases out with
  | exited c so se =>
      have hc : ¬c = 0 := by
        intro h0
        rw [ExecOutcome.isSuccess, h0] at hfail
        simp at hfail
      show (execute_job cfg now j (ExecOutcome.exited c so se) dur).2.attempts = _ ∧ _
      simp only [execute_job, if_neg hc]
      obtain ⟨h1, h2, _, h4, h5⟩ := handle_job_failure_fields cfg now
        { j with lastStdout := some (truncOut so), lastStderr := some (truncOut se),
                 durationMs := some dur }
        (if truncOut se ≠ [] then truncOut se
         else if truncOut so ≠ [] then truncOut so else exitCodeMsg c)
      exact ⟨h1, by rw [h2]; simp, h4, h5⟩
  | timedOut =>
      obtain ⟨h1, h2, _, h4, h5⟩ := handle_job_failure_fields cfg now j (timeoutMsg (effTimeout cfg j))
      exact ⟨h1, by rw [show (execute_job cfg now j ExecOutcome.timedOut dur).2 =
        handle_job_failure cfg now j (timeoutMsg (effTimeout cfg j)) from rfl, h2]; simp, h4, h5⟩
  | spawnFailed =>
      obtain ⟨h1, h2, _, h4, h5⟩ := handle_job_failure_fields cfg now j ("Command not found".toList)
      exact ⟨h1, by rw [show (execute_job cfg now j ExecOutcome.spawnFailed dur).2 =
        handle_job_failure cfg now j ("Command not found".toList) from rfl, h2]; simp, h4, h5⟩
  | raised msg =>
      obtain ⟨h1, h2, _, h4, h5⟩ := handle_job_failure_fields cfg now j msg
      exact ⟨h1, by rw [show (execute_job cfg now j (ExecOutcome.raised msg) dur).2 =
        handle_job_failure cfg now j msg from rfl, h2]; simp, h4, h5⟩

/-- Witness for C2 at a concrete timed-out execution. -/
theorem failure_backoff_spec_witness :
    (ExecOutcome.timedOut.isSuccess = false) ∧
    ((execute_job cfg0 5 job0 ExecOutcome.timedOut 7).2.attempts = job0.attempts + 1 ∧
     (execute_job cfg0 5 job0 ExecOutcome.timedOut 7).2.errorMessage ≠ none ∧
     (job0.attempts + 1 ≥ job0.maxRetries →
       (execute_job cfg0 5 job0 ExecOutcome.timedOut 7).2.state = JobState.dead ∧
       (execute_job cfg0 5 job0 ExecOutcome.timedOut 7).2.nextRetryAt = none) ∧
     (job0.attempts + 1 < job0.maxRetries →
       (execute_job cfg0 5 job0 ExecOutcome.timedOut 7).2.state = JobState.failed ∧
       (execute_job cfg0 5 job0 ExecOutcome.timedOut 7).2.nextRetryAt =
         some (5 + cfg0.backoffBase ^ (job0.attempts + 1)))) :=
  ⟨rfl, failure_backoff_spec cfg0 5 job0 ExecOutcome.timedOut 7 rfl⟩

theorem handle_job_failure_state (cfg : Config) (now : Nat) (j : Job) (msg : List Char) :
    (handle_job_failure cfg now j msg).state = JobState.dead ∨
    (handle_job_failure cfg now j msg).state = JobState.failed := by
  unfold handle_job_failure
  by_cases h : j.attempts + 1 ≥ j.maxRetries
  · rw [if_pos h]
    exact Or.inl rfl
  · rw [if_neg h]
    exact Or.inr rfl

theorem handle_job_failure_outputs (cfg : Config) (now : Nat) (j : Job) (msg : List Char) :
    (handle_job_failure cfg now j msg).lastStdout = j.lastStdout ∧
    (handle_job_failure cfg now j msg).lastStderr = j.lastStderr := by
  unfold handle_job_failure
  by_cases h : j.attempts + 1 ≥ j.maxRetries
  · rw [if_pos h]
    exact ⟨rfl, rfl⟩
  · rw [if_neg h]
    exact ⟨rfl, rfl⟩

theorem execute_job_id (cfg : Config) (now : Nat) (j : Job) (out : ExecOutcome) (dur : Nat) :
    (execute_job cfg now j out dur).2.id = j.id := by
  cases out with
  | exited c so se =>
      by_cases hc : c = 0
      · simp only [execute_job, if_pos hc]
      · simp only [execute_job, if_neg hc]
        exact (handle_job_failure_fields cfg now _ _).2.2.1
  | timedOut => exact (handle_job_failure_fields cfg now _ _).2.2.1
  | spawnFailed => exact (handle_job_failure_fields cfg now _ _).2.2.1
  | raised msg => exact (handle_job_failure_fields cfg now _ _).2.2.1

/-- C10.  `execute_job` returns `true` exactly when the subprocess
exited with code 0, which is exactly when the persisted job state is
`completed`; on every other path it returns `false` and the persisted
state is `failed` or `dead`.  The final conjunct ties the returned
record to the store: saving it makes it the record found under the
job's id. -/
theorem execute_result_spec (cfg : Config) (now : Nat) (j : Job) (out : ExecOutcome)
    (dur : Nat) (db : List Job) :
    ((execute_job cfg now j out dur).1 = true ↔ ∃ so se, out = ExecOutcome.exited 0 so se) ∧
    ((execute_job cfg now j out dur).1 = true ↔
      (execute_job cfg now j out dur).2.state = JobState.completed) ∧
    ((execute_job cfg now j out dur).1 = false →
      (execute_job cfg now j out dur).2.state = JobState.failed ∨
      (execute_job cfg now j out dur).2.state = JobState.dead) ∧
    get_job (save_job db (execute_job cfg now j out dur).2) j.id =
      some (execute_job cfg now j out dur).2 := by
  have key : ((execute_job cfg now j out dur).1 = true ∧
      (execute_job cfg now j out dur).2.state = JobState.completed ∧
      ∃ so se, out = ExecOutcome.exited 0 so se) ∨
      ((execute_job cfg now j out dur).1 = false ∧
      ((execute_job cfg now j out dur).2.state = JobState.dead ∨
       (execute_job cfg now j out dur).2.state = JobState.failed) ∧
      ¬∃ so se, out = ExecOutcome.exited 0 so se) := by
    cases out with
    | exited c so se =>
        by_cases hc : c = 0
        · left
          subst hc
          exact ⟨rfl, rfl, so, se, rfl⟩
        · right
          refine ⟨by simp only [execute_job, if_neg hc], ?_, ?_⟩
          · simpa only [execute_job, if_neg hc] using handle_job_failure_state cfg now _ _
          · rintro ⟨so', se', heq⟩
            injection heq with h1 _ _
            exact hc h1
    | timedOut =>
        exact Or.inr ⟨rfl, handle_job_failure_state cfg now _ _, by rintro ⟨_, _, ⟨⟩⟩⟩
    | spawnFailed =>
        exact Or.inr ⟨rfl, handle_job_failure_state cfg now _ _, by rintro ⟨_, _, ⟨⟩⟩⟩
    | raised msg =>
        exact Or.inr ⟨rfl, handle_job_failure_state cfg now _ _, by rintro ⟨_, _, ⟨⟩⟩⟩
  have hsave : get_job (save_job db (execute_job cfg now j out dur).2) j.id =
      some (execute_job cfg now j out dur).2 := by
    rw [← execute_job_id cfg now j out dur]
    exact get_job_save_job_self db _
  rcases key with ⟨h1, h2, h3⟩ | ⟨h1, h2, h3⟩
  · refine ⟨⟨fun _ => h3, fun _ => h1⟩, ⟨fun _ => h2, fun _ => h1⟩, ?_, hsave⟩
    intro hf
    rw [h1] at hf
    exact absurd hf (by decide)
  · refine ⟨⟨?_, fun hex => absurd hex h3⟩, ⟨?_, ?_⟩, fun _ => Or.symm h2, hsave⟩
    · intro ht
      rw [h1] at ht
      exact absurd ht (by decide)
    · intro ht
      rw [h1] at ht
      exact absurd ht (by decide)
    · intro hst
      rcases h2 with hd | hf
      · rw [hst] at hd
        exact absurd hd (by decide)
      · rw [hst] at hf
        exact absurd hf (by decide)

/-- C7 (amended).  The captured stdout and stderr stored on the job are
each the first 4000 characters of the stream, hence at most 4000
characters long (not the claimed 4 KiB = 4096 bytes). -/
theorem capture_truncation_spec (cfg : Config) (now : Nat) (j : Job) (c : Int)
    (so se : List Char) (dur : Nat) :
    (execute_job cfg now j (ExecOutcome.exited c so se) dur).2.lastStdout = some (truncOut so) ∧
    (execute_job cfg now j (ExecOutcome.exited c so se) dur).2.lastStderr = some (truncOut se) ∧
    (truncOut so).length ≤ 4000 ∧ (truncOut se).length ≤ 4000 := by
  have hlen : ∀ s : List Char, (truncOut s).length ≤ 4000 := by
    intro s
    show (s.take 4000).length ≤ 4000
    rw [List.length_take]
    exact min_le_left _ _
  by_cases hc : c = 0
  · subst hc
    exact ⟨rfl, rfl, hlen so, hlen se⟩
  · simp only [execute_job, if_neg hc]
    obtain ⟨h1, h2⟩ := handle_job_failure_outputs cfg now
      { j with lastStdout := some (truncOut so), lastStderr := some (truncOut se),
               durationMs := some dur }
      (if truncOut se ≠ [] then truncOut se
       else if truncOut so ≠ [] then truncOut so else exitCodeMsg c)
    exact ⟨h1, h2, hlen so, hlen se⟩

/-- C7 counterexample.  The claim says each stored stream is truncated
to at most 4 KiB (4096 bytes); an execution whose stdout is 2049 copies
of the two-byte character `é` is stored untruncated (2049 ≤ 4000
characters) yet occupies 4098 UTF-8 bytes. -/
theorem capture_truncation_cex :
    4096 < utf8Len ((execute_job cfg0 0 job0
      (ExecOutcome.exited 0 (List.replicate 2049 'é') []) 0).2.lastStdout.getD []) := by
  have hstored : (execute_job cfg0 0 job0
      (ExecOutcome.exited 0 (List.replicate 2049 'é') []) 0).2.lastStdout =
      some (truncOut (List.replicate 2049 'é')) := rfl
  rw [hstored]
  show 4096 < utf8Len (truncOut (List.replicate 2049 'é'))
  have htake : truncOut (List.replicate 2049 'é') = List.replicate 2049 'é' := by
    show List.take 4000 (List.replicate 2049 'é') = _
    rw [List.take_replicate]
    norm_num
  rw [htake, utf8Len, List.map_replicate, show Char.utf8Size 'é' = 2 from by decide,
      List.sum_replicate, smul_eq_mul]
  norm_num

/-- C4 counterexample.  At the store level, `save_job` on a job whose id
already exists is insert-or-REPLACE, not insert-or-fail: the store
changes and the duplicate id's record is overwritten by the new job. -/
theorem store_save_replaces_cex :
    save_job [job0] { job0 with command := "false".toList, state := JobState.pending } ≠ [job0] ∧
    get_job (save_job [job0] { job0 with command := "false".toList, state := JobState.pending })
        job0.id =
      some { job0 with command := "false".toList, state := JobState.pending } := by
  exact ⟨by decide, by decide⟩

/-- C4 (amended).  `enqueue_job` rejects a duplicate id with an error
before any write, leaving the existing record unchanged, and persists a
fresh id through the store; the store-level save primitive itself is
insert-or-replace (it always makes its argument the record stored under
that id). -/
theorem enqueue_duplicate_spec (db : List Job) (j : Job) :
    (∀ e, get_job db j.id = some e →
      enqueue_job db j = Except.error ("Job with given id already exists".toList)) ∧
    (get_job db j.id = none → enqueue_job db j = Except.ok (save_job db j)) ∧
    (∀ k : Job, get_job (save_job db k) k.id = some k) := by
  refine ⟨?_, ?_, fun k => get_job_save_job_self db k⟩
  · intro e he
    unfold enqueue_job
    rw [he]
  · intro hn
    unfold enqueue_job
    rw [hn]

/-- Witness for C4's amended theorem on a concrete duplicate enqueue. -/
theorem enqueue_duplicate_spec_witness :
    (get_job [job0] job0.id = some job0) ∧
    enqueue_job [job0] { job0 with command := "false".toList } =
      Except.error ("Job with given id already exists".toList) :=
  ⟨by decide, (enqueue_duplicate_spec [job0] { job0 with command := "false".toList }).1
    job0 (by decide)⟩

/-- C5.  `retry_dlq_job` succeeds exactly when a job with the id exists
in state `dead`; on success the stored record becomes pending with
`attempts = 0` and `error_message`, `next_retry_at` cleared; on failure
the store is unchanged. -/
theorem requeue_dlq_spec (db : List Job) (now : Nat) (jid : String) :
    ((retry_dlq_job db now jid).1 = true ↔
      ∃ j, get_job db jid = some j ∧ j.state = JobState.dead) ∧
    (∀ j, get_job db jid = some j → j.state = JobState.dead →
      (retry_dlq_job db now jid).2 = save_job db (dlqReset now j) ∧
      get_job (retry_dlq_job db now jid).2 jid = some (dlqReset now j) ∧
      (dlqReset now j).state = JobState.pending ∧ (dlqReset now j).attempts = 0 ∧
      (dlqReset now j).errorMessage = none ∧ (dlqReset now j).nextRetryAt = none) ∧
    ((retry_dlq_job db now jid).1 = false → (retry_dlq_job db now jid).2 = db) := by
  by_cases hex : ∃ j, get_job db jid = some j ∧ j.state = JobState.dead
  · obtain ⟨j, hg, hd⟩ := hex
    have hr : retry_dlq_job db now jid = (true, save_job db (dlqReset now j)) := by
      unfold retry_dlq_job
      rw [hg]
      simp [hd]
    refine ⟨⟨fun _ => ⟨j, hg, hd⟩, fun _ => by rw [hr]⟩, ?_, ?_⟩
    · intro j' hj' _
      have hjj : j = j' := by
        rw [hg] at hj'
        exact Option.some.inj hj'
      subst hjj
      have hid : j.id = jid := get_job_id_eq db jid j hg
      refine ⟨by rw [hr], ?_, rfl, rfl, rfl, rfl⟩
      rw [hr]
      have hs := get_job_save_job_self db (dlqReset now j)
      rw [show (dlqReset now j).id = jid from hid] at hs
      exact hs
    · intro hf
      rw [hr] at hf
      simp at hf
  · have hr : retry_dlq_job db now jid = (false, db) := by
      unfold retry_dlq_job
      cases hcase : get_job db jid with
      | none => rfl
      | some j =>
          have hd : ¬j.state = JobState.dead := fun hd => hex ⟨j, hcase, hd⟩
          simp [hd]
    refine ⟨⟨?_, fun hx => absurd hx hex⟩, ?_, fun _ => by rw [hr]⟩
    · intro ht
      rw [hr] at ht
      simp at ht
    · intro j hj hd
      exact absurd ⟨j, hj, hd⟩ hex

/-- A sample DLQ job record for witnesses. -/
def jobDead : Job :=
  { job0 with id := "d", state := JobState.dead, attempts := 3,
              errorMessage := some ("boom".toList), nextRetryAt := some 50 }

/-- Witness for C5's success path at a concrete dead job. -/
theorem requeue_dlq_spec_witness :
    (get_job [jobDead] "d" = some jobDead) ∧ jobDead.state = JobState.dead ∧
    ((retry_dlq_job [jobDead] 9 "d").2 = save_job [jobDead] (dlqReset 9 jobDead) ∧
     get_job (retry_dlq_job [jobDead] 9 "d").2 "d" = some (dlqReset 9 jobDead) ∧
     (dlqReset 9 jobDead).state = JobState.pending ∧ (dlqReset 9 jobDead).attempts = 0 ∧
     (dlqReset 9 jobDead).errorMessage = none ∧ (dlqReset 9 jobDead).nextRetryAt = none) :=
  ⟨by decide, by decide,
    (requeue_dlq_spec [jobDead] 9 "d").2.1 jobDead (by decide) (by decide)⟩

/-- A configuration with the non-integer poll interval 3.5 s. -/
def cfg35 : Config :=
  { maxRetries := 3, backoffBase := 2, workerPollInterval := 7 / 2,
    defaultTimeoutSeconds := 300 }

/-- C8 counterexample.  With `worker_poll_interval = 3.5` the worker
passes `max(int(3.5) * 120, 300) = 360` to the reaper, while the claimed
formula `max(3.5 × 120, 300)` gives 420. -/
theorem reap_threshold_cex :
    ¬(((startupReapThreshold cfg35 : Int) : ℚ) =
        max (cfg35.workerPollInterval * 120) 300) := by
  have hfloor : pyInt ((7 : ℚ) / 2) = 3 := by
    rw [pyInt, if_pos (by norm_num)]
    norm_num [Int.floor_eq_iff]
  have h1 : startupReapThreshold cfg35 = 360 := by
    rw [startupReapThreshold, show cfg35.workerPollInterval = (7 : ℚ) / 2 from rfl, hfloor]
    norm_num
  rw [h1, show cfg35.workerPollInterval = (7 : ℚ) / 2 from rfl]
  norm_num

/-- C8 (amended).  The worker's stale threshold (at startup and on the
periodic reap alike) is `max(int(worker_poll_interval) × 120, 300)`,
with Python `int()` truncating first; for an integer-valued poll
interval `n` this equals the spec's `max(n × 120, 300)`. -/
theorem reap_threshold_int_spec (cfg : Config) (n : ℕ)
    (h : cfg.workerPollInterval = (n : ℚ)) :
    startupReapThreshold cfg = max ((n : Int) * 120) 300 ∧
    periodicReapThreshold cfg = max ((n : Int) * 120) 300 := by
  have hp : pyInt cfg.workerPollInterval = (n : Int) := by
    rw [h, pyInt, if_pos (by positivity)]
    exact Int.floor_natCast n
  exact ⟨by rw [startupReapThreshold, hp], by rw [periodicReapThreshold, hp]⟩

/-- Witness for C8's amended theorem at poll interval 1. -/
theorem reap_threshold_int_spec_witness :
    (cfg0.workerPollInterval = ((1 : ℕ) : ℚ)) ∧
    (startupReapThreshold cfg0 = max ((1 : Int) * 120) 300 ∧
     periodicReapThreshold cfg0 = max ((1 : Int) * 120) 300) :=
  ⟨by norm_num [cfg0], reap_threshold_int_spec cfg0 1 (by norm_num [cfg0])⟩

/-- Witness for C10 at a concrete successful execution. -/
theorem execute_result_spec_witness :
    ((execute_job cfg0 1 job0 (ExecOutcome.exited 0 ("hi".toList) []) 2).1 = true ↔
      ∃ so se, ExecOutcome.exited 0 ("hi".toList) [] = ExecOutcome.exited 0 so se) ∧
    ((execute_job cfg0 1 job0 (ExecOutcome.exited 0 ("hi".toList) []) 2).1 = true ↔
      (execute_job cfg0 1 job0 (ExecOutcome.exited 0 ("hi".toList) []) 2).2.state =
        JobState.completed) ∧
    ((execute_job cfg0 1 job0 (ExecOutcome.exited 0 ("hi".toList) []) 2).1 = false →
      (execute_job cfg0 1 job0 (ExecOutcome.exited 0 ("hi".toList) []) 2).2.state =
        JobState.failed ∨
      (execute_job cfg0 1 job0 (ExecOutcome.exited 0 ("hi".toList) []) 2).2.state =
        JobState.dead) ∧
    get_job (save_job [job0] (execute_job cfg0 1 job0
        (ExecOutcome.exited 0 ("hi".toList) []) 2).2) job0.id =
      some (execute_job cfg0 1 job0 (ExecOutcome.exited 0 ("hi".toList) []) 2).2 :=
  execute_result_spec cfg0 1 job0 (ExecOutcome.exited 0 ("hi".toList) []) 2 [job0]

/-! ### The claim primitive (C1) -/

/-- Propositional form of the strict `ORDER BY priority DESC,
created_at ASC` order. -/
def JobBeforeP (a b : Job) : Prop :=
  b.priority < a.priority ∨ (a.priority = b.priority ∧ a.createdAt < b.createdAt)

theorem jobBefore_iff (a b : Job) : jobBefore a b = true ↔ JobBeforeP a b := by
  simp [jobBefore, JobBeforeP]

theorem jobBeforeP_irrefl (a : Job) : ¬JobBeforeP a a := by
  unfold JobBeforeP
  omega

theorem jobBeforeP_trans (a b c : Job) (h1 : JobBeforeP a b) (h2 : JobBeforeP b c) :
    JobBeforeP a c := by
  unfold JobBeforeP at *
  omega

theorem jobBeforeP_shift (j a m : Job) (h1 : ¬JobBeforeP j a) (h2 : JobBeforeP j m) :
    JobBeforeP a m := by
  unfold JobBeforeP at *
  omega

theorem pickBest_aux (l : List Job) : ∀ a : Job,
    ∃ m, l.foldl
        (fun acc j =>
          match acc with
          | none => some j
          | some b => if jobBefore j b then some j else some b)
        (some a) = some m ∧
      (m = a ∨ m ∈ l) ∧ ¬JobBeforeP a m ∧ ∀ k ∈ l, ¬JobBeforeP k m := by
  induction l with
  | nil =>
      intro a
      exact ⟨a, rfl, Or.inl rfl, jobBeforeP_irrefl a, by intro k hk; cases hk⟩
  | cons j t ih =>
      intro a
      by_cases hb : jobBefore j a = true
      · have hba : JobBeforeP j a := (jobBefore_iff j a).mp hb
        obtain ⟨m, hfold, hmem, hjm, hall⟩ := ih j
        refine ⟨m, ?_, ?_, ?_, ?_⟩
        · simpa [hb] using hfold
        · rcases hmem with rfl | hm
          · exact Or.inr (List.mem_cons_self _ _)
          · exact Or.inr (List.mem_cons_of_mem _ hm)
        · intro ham
          exact hjm (jobBeforeP_trans j a m hba ham)
        · intro k hk
          rcases List.mem_cons.mp hk with rfl | hkt
          · exact hjm
          · exact hall k hkt
      · have hba : ¬JobBeforeP j a := fun h => hb ((jobBefore_iff j a).mpr h)
        obtain ⟨m, hfold, hmem, ham, hall⟩ := ih a
        refine ⟨m, ?_, ?_, ham, ?_⟩
        · simpa [hb] using hfold
        · rcases hmem with rfl | hm
          · exact Or.inl rfl
          · exact Or.inr (List.mem_cons_of_mem _ hm)
        · intro k hk
          rcases List.mem_cons.mp hk with rfl | hkt
          · exact fun hjm => ham (jobBeforeP_shift k a m hba hjm)
          · exact hall k hkt

theorem pickBest_spec (l : List Job) (m : Job) (h : pickBest l = some m) :
    m ∈ l ∧ ∀ k ∈ l, ¬JobBeforeP k m := by
  cases l with
  | nil => cases h
  | cons x t =>
      obtain ⟨m', hfold, hmem, hxm, hall⟩ := pickBest_aux t x
      have hpick : pickBest (x :: t) = some m' := by
        show t.foldl _ (some x) = some m'
        exact hfold
      rw [h] at hpick
      injection hpick with hmm
      subst hmm
      constructor
      · rcases hmem with rfl | hm
        · exact List.mem_cons_self _ _
        · exact List.mem_cons_of_mem _ hm
      · intro k hk
        rcases List.mem_cons.mp hk with rfl | hkt
        · exact hxm
        · exact hall k hkt

theorem pickBest_isSome (l : List Job) (hne : l ≠ []) : ∃ m, pickBest l = some m := by
  cases l with
  | nil => exact absurd rfl hne
  | cons x t =>
      obtain ⟨m, hfold, _, _, _⟩ := pickBest_aux t x
      exact ⟨m, hfold⟩

theorem eligible_pending (now : Nat) (j : Job) (h : eligible now j = true) :
    j.state = JobState.pending := by
  have := (Bool.and_eq_true _ _).mp h
  simpa using this.1

theorem claimAfterSelect_of_pending (db : List Job) (row : Job) (now : Nat)
    (hmem : row ∈ db) (hpend : row.state = JobState.pending) :
    claimAfterSelect db row now =
      ((claimUpdate db row.id now).1, some (markProcessing now row)) := by
  have hcnt : 0 < (claimUpdate db row.id now).2 := by
    show 0 < db.countP (fun x => x.id == row.id && x.state == JobState.pending)
    refine List.countP_pos_iff.mpr ⟨row, hmem, ?_⟩
    simp [hpend]
  unfold claimAfterSelect
  rw [if_neg (by omega)]

/-- C1.  The claim primitive: with no eligible pending row it returns
nothing and leaves the table unchanged; a returned job is an eligible
row maximal in the `priority DESC, created_at ASC` order, returned with
`state = processing` and `updated_at = now`, the table being updated by
the CAS conditional on `id` and `state = pending`; when an eligible row
exists something is claimed; and, structurally, a conditional update
affecting zero rows makes the primitive return nothing. -/
theorem claim_next_spec (db : List Job) (now : Nat) :
    ((∀ j ∈ db, eligible now j = false) → get_pending_job db now = (db, none)) ∧
    (∀ jret, (get_pending_job db now).2 = some jret →
      ∃ row, row ∈ db ∧ eligible now row = true ∧
        (∀ k ∈ db, eligible now k = true → ¬JobBeforeP k row) ∧
        jret = markProcessing now row ∧
        (get_pending_job db now).1 =
          db.map (fun x => if x.id == row.id && x.state == JobState.pending
                           then markProcessing now x else x)) ∧
    ((∃ j ∈ db, eligible now j = true) → ∃ jret, (get_pending_job db now).2 = some jret) ∧
    (∀ row, (claimUpdate db row.id now).2 = 0 →
      claimAfterSelect db row now = ((claimUpdate db row.id now).1, none)) := by
  refine ⟨?_, ?_, ?_, ?_⟩
  · intro hall
    have hfil : db.filter (eligible now) = [] := by
      rw [List.filter_eq_nil_iff]
      intro a ha
      simp [hall a ha]
    have hsel : selectPendingRow db now = none := by
      rw [selectPendingRow, hfil]
      rfl
    unfold get_pending_job
    rw [hsel]
  · intro jret hret
    cases hsel : selectPendingRow db now with
    | none =>
        have : get_pending_job db now = (db, none) := by
          unfold get_pending_job
          rw [hsel]
        rw [this] at hret
        cases hret
    | some row =>
        have hget : get_pending_job db now = claimAfterSelect db row now := by
          unfold get_pending_job
          rw [hsel]
        obtain ⟨hmemf, hopt⟩ := pickBest_spec _ row hsel
        have hmem : row ∈ db := (List.mem_filter.mp hmemf).1
        have helig : eligible now row = true := (List.mem_filter.mp hmemf).2
        have hca := claimAfterSelect_of_pending db row now hmem (eligible_pending now row helig)
        rw [hget, hca] at hret
        injection hret with hjj
        refine ⟨row, hmem, helig, ?_, hjj.symm, ?_⟩
        · intro k hk hke
          exact hopt k (List.mem_filter.mpr ⟨hk, hke⟩)
        · rw [hget, hca]
          rfl
  · rintro ⟨j, hj, hje⟩
    have hne : db.filter (eligible now) ≠ [] := by
      intro hnil
      have := List.filter_eq_nil_iff.mp hnil j hj
      simp [hje] at this
    obtain ⟨row, hsel⟩ := pickBest_isSome _ hne
    have hget : get_pending_job db now = claimAfterSelect db row now := by
      unfold get_pending_job
      show (match selectPendingRow db now with
            | none => (db, none)
            | some row => claimAfterSelect db row now) = _
      rw [show selectPendingRow db now = some row from hsel]
    obtain ⟨hmemf, _⟩ := pickBest_spec _ row hsel
    have hmem : row ∈ db := (List.mem_filter.mp hmemf).1
    have helig : eligible now row = true := (List.mem_filter.mp hmemf).2
    have hca := claimAfterSelect_of_pending db row now hmem (eligible_pending now row helig)
    exact ⟨markProcessing now row, by rw [hget, hca]⟩
  · intro row h0
    unfold claimAfterSelect
    rw [if_pos h0]

/-- A pending sample job of priority 1. -/
def jobP1 : Job :=
  { job0 with id := "p1", state := JobState.pending, priority := 1, createdAt := 5 }

/-- A pending sample job of priority 5. -/
def jobP2 : Job :=
  { job0 with id := "p2", state := JobState.pending, priority := 5, createdAt := 9 }

/-- Witness for C1: with an eligible pending job present, the primitive
claims one. -/
theorem claim_next_spec_witness :
    (∃ j ∈ [jobP1, jobP2], eligible 100 j = true) ∧
    ∃ jret, (get_pending_job [jobP1, jobP2] 100).2 = some jret :=
  ⟨by decide, (claim_next_spec [jobP1, jobP2] 100).2.2.1 (by decide)⟩

/-! ### A generic description of fold-of-row-updates (reaper, promotion) -/

theorem job_id_inj (db : List Job) (hnd : (db.map Job.id).Nodup) {x y : Job}
    (hx : x ∈ db) (hy : y ∈ db) (h : x.id = y.id) : x = y :=
  List.inj_on_of_nodup_map hnd hx hy h

theorem foldl_update_aux (db : List Job) (P : Job → Bool) (v : Job → Job → Job)
    (hv : ∀ j x, x.id = j.id → (v j x).id = x.id)
    (hnd : (db.map Job.id).Nodup) :
    ∀ l s : List Job, (s ++ l).Perm (db.filter P) →
    l.foldl (fun acc j => acc.map (fun x => if x.id == j.id then v j x else x))
      (db.map (fun x => if s.any (fun y => y.id == x.id) then v x x else x)) =
    db.map (fun x => if P x then v x x else x) := by
  intro l
  induction l with
  | nil =>
      intro s hperm
      rw [List.append_nil] at hperm
      simp only [List.foldl_nil]
      apply List.map_congr_left
      intro x hx
      by_cases hP : P x = true
      · have hxs : x ∈ s := hperm.mem_iff.mpr (List.mem_filter.mpr ⟨hx, hP⟩)
        have hany : s.any (fun y => y.id == x.id) = true :=
          List.any_eq_true.mpr ⟨x, hxs, by simp⟩
        rw [if_pos hany, if_pos hP]
      · have hany : ¬s.any (fun y => y.id == x.id) = true := by
          intro hta
          obtain ⟨y, hys, hyid⟩ := List.any_eq_true.mp hta
          have hyf : y ∈ db.filter P := hperm.mem_iff.mp hys
          have hyx : y = x :=
            job_id_inj db hnd (List.mem_filter.mp hyf).1 hx (by simpa using hyid)
          rw [hyx] at hyf
          exact hP (List.mem_filter.mp hyf).2
        rw [if_neg hany, if_neg hP]
  | cons j t ih =>
      intro s hperm
      have hjf : j ∈ db.filter P := hperm.mem_iff.mp (by simp)
      have hjdb : j ∈ db := (List.mem_filter.mp hjf).1
      have hnodupSl : (s ++ j :: t).Nodup :=
        hperm.nodup_iff.mpr ((List.Nodup.of_map Job.id hnd).filter P)
      have hjs : j ∉ s := by
        intro hjin
        exact (List.nodup_append.mp hnodupSl).2.2 hjin (by simp)
      simp only [List.foldl_cons]
      rw [List.map_map]
      have hmapeq : db.map ((fun x => if x.id == j.id then v j x else x) ∘
          (fun x => if s.any (fun y => y.id == x.id) then v x x else x)) =
          db.map (fun x => if (s ++ [j]).any (fun y => y.id == x.id) then v x x else x) := by
        apply List.map_congr_left
        intro x hx
        simp only [Function.comp]
        by_cases hxj : x.id = j.id
        · have hxeq : x = j := job_id_inj db hnd hx hjdb hxj
          subst hxeq
          have hanys : ¬s.any (fun y => y.id == x.id) = true := by
            intro hta
            obtain ⟨y, hys, hyid⟩ := List.any_eq_true.mp hta
            have hyf : y ∈ db.filter P := hperm.mem_iff.mp (List.mem_append_left _ hys)
            have hyx : y = x :=
              job_id_inj db hnd (List.mem_filter.mp hyf).1 hx (by simpa using hyid)
            rw [hyx] at hys
            exact hjs hys
          rw [if_neg hanys, if_pos (by simp), if_pos (by simp [List.any_append])]
        · have hident : (if s.any (fun y => y.id == x.id) then v x x else x).id = x.id := by
            split_ifs
            · exact hv x x rfl
            · rfl
          have houter : ¬((if s.any (fun y => y.id == x.id) then v x x else x).id == j.id) = true := by
            rw [hident]
            simp [hxj]
          rw [if_neg houter]
          have happ : (s ++ [j]).any (fun y => y.id == x.id) = s.any (fun y => y.id == x.id) := by
            rw [List.any_append]
            have : ([j].any fun y => y.id == x.id) = false := by
              simp only [List.any_cons, List.any_nil, Bool.or_false]
              rw [beq_eq_false_iff_ne]
              exact fun h => hxj h.symm
            rw [this, Bool.or_false]
          rw [happ]
      rw [hmapeq]
      apply ih (s ++ [j])
      rw [List.append_assoc, List.singleton_append]
      exact hperm

theorem foldl_update_eq_map (db : List Job) (P : Job → Bool) (v : Job → Job → Job)
    (hv : ∀ j x, x.id = j.id → (v j x).id = x.id)
    (hnd : (db.map Job.id).Nodup)
    (l : List Job) (hperm : l.Perm (db.filter P)) :
    l.foldl (fun acc j => acc.map (fun x => if x.id == j.id then v j x else x)) db =
    db.map (fun x => if P x then v x x else x) := by
  have h0 : db.map (fun x =>
      if ([] : List Job).any (fun y => y.id == x.id) then v x x else x) = db := by
    simp
  have := foldl_update_aux db P v hv hnd l [] (by simpa using hperm)
  rw [h0] at this
  exact this

theorem get_job_map (db : List Job) (φ : Job → Job) (hφ : ∀ x, (φ x).id = x.id)
    (jid : String) : get_job (db.map φ) jid = (get_job db jid).map φ := by
  unfold get_job
  induction db with
  | nil => rfl
  | cons x t ih =>
      simp only [List.map_cons]
      by_cases hx : (x.id == jid) = true
      · rw [@List.find?_cons_of_pos _ (fun y => y.id == jid) (φ x) _
              (by show ((φ x).id == jid) = true; rw [hφ x]; exact hx),
            @List.find?_cons_of_pos _ (fun y => y.id == jid) x _ hx]
        rfl
      · rw [@List.find?_cons_of_neg _ (fun y => y.id == jid) (φ x) _
              (by show ¬((φ x).id == jid) = true; rw [hφ x]; exact hx),
            @List.find?_cons_of_neg _ (fun y => y.id == jid) x _ hx]
        exact ih

theorem foldl_pair_fst_reset (now : Nat) (l : List Job) :
    ∀ (acc : List Job) (n : Nat),
    (l.foldl (fun a j =>
        (a.1.map (fun x => if x.id == j.id then staleRecover now x else x),
         a.2 + if a.1.any (fun x => x.id == j.id) then 1 else 0)) (acc, n)).1 =
    l.foldl (fun a j => a.map (fun x => if x.id == j.id then staleRecover now x else x)) acc := by
  induction l with
  | nil => intro acc n; rfl
  | cons j t ih =>
      intro acc n
      simp only [List.foldl_cons]
      exact ih _ _

theorem foldl_pair_cnt_reset (now : Nat) (l : List Job) :
    ∀ (acc : List Job) (n : Nat), (∀ j ∈ l, ∃ x ∈ acc, x.id = j.id) →
    (l.foldl (fun a j =>
        (a.1.map (fun x => if x.id == j.id then staleRecover now x else x),
         a.2 + if a.1.any (fun x => x.id == j.id) then 1 else 0)) (acc, n)).2 =
    n + l.length := by
  induction l with
  | nil =>
      intro acc n _
      simp
  | cons j t ih =>
      intro acc n hex
      simp only [List.foldl_cons]
      have hany : acc.any (fun x => x.id == j.id) = true := by
        obtain ⟨x, hxa, hxe⟩ := hex j (by simp)
        exact List.any_eq_true.mpr ⟨x, hxa, by simp [hxe]⟩
      rw [if_pos hany]
      have hid : ∀ j' ∈ t,
          ∃ x ∈ acc.map (fun x => if x.id == j.id then staleRecover now x else x),
            x.id = j'.id := by
        intro j' hj'
        obtain ⟨x, hxa, hxe⟩ := hex j' (List.mem_cons_of_mem _ hj')
        refine ⟨_, List.mem_map_of_mem _ hxa, ?_⟩
        split_ifs
        · exact hxe
        · exact hxe
      rw [ih _ _ hid]
      simp only [List.length_cons]
      omega

theorem reset_stale_core (db : List Job) (now stale : Nat)
    (hnd : (db.map Job.id).Nodup) :
    reset_stale_processing_jobs db now stale =
      (db.map (fun x => if staleProc now stale x then staleRecover now x else x),
       (db.filter (staleProc now stale)).length) := by
  unfold reset_stale_processing_jobs
  refine Prod.ext ?_ ?_
  · rw [foldl_pair_fst_reset]
    exact foldl_update_eq_map db (staleProc now stale) (fun _ x => staleRecover now x)
      (fun _ _ _ => rfl) hnd _ (List.Perm.refl _)
  · rw [foldl_pair_cnt_reset now _ db 0
      (fun j hj => ⟨j, (List.mem_filter.mp hj).1, rfl⟩)]
    simp

theorem foldl_pair_fst_promote (now : Nat) (l : List Job) :
    ∀ (acc : List Job) (n : Nat),
    (l.foldl (fun a j => (save_job a.1 (promoteJob now j), a.2 + 1)) (acc, n)).1 =
    l.foldl (fun a j => save_job a (promoteJob now j)) acc := by
  induction l with
  | nil => intro acc n; rfl
  | cons j t ih =>
      intro acc n
      simp only [List.foldl_cons]
      exact ih _ _

theorem foldl_pair_cnt_promote (now : Nat) (l : List Job) :
    ∀ (acc : List Job) (n : Nat),
    (l.foldl (fun a j => (save_job a.1 (promoteJob now j), a.2 + 1)) (acc, n)).2 =
    n + l.length := by
  induction l with
  | nil =>
      intro acc n
      simp
  | cons j t ih =>
      intro acc n
      simp only [List.foldl_cons]
      rw [ih]
      simp only [List.length_cons]
      omega

theorem foldl_save_promote (now : Nat) (l : List Job) :
    ∀ acc : List Job, (∀ j ∈ l, ∃ x ∈ acc, x.id = j.id) →
    l.foldl (fun a j => save_job a (promoteJob now j)) acc =
    l.foldl (fun a j => a.map (fun x => if x.id == j.id then promoteJob now j else x)) acc := by
  induction l with
  | nil => intro acc _; rfl
  | cons j t ih =>
      intro acc hex
      simp only [List.foldl_cons]
      have hany : acc.any (fun x => x.id == (promoteJob now j).id) = true := by
        obtain ⟨x, hxa, hxe⟩ := hex j (by simp)
        refine List.any_eq_true.mpr ⟨x, hxa, ?_⟩
        rw [show (promoteJob now j).id = j.id from rfl]
        simp [hxe]
      have hsave : save_job acc (promoteJob now j) =
          acc.map (fun x => if x.id == j.id then promoteJob now j else x) := by
        unfold save_job
        rw [if_pos hany]
        rfl
      rw [hsave]
      apply ih
      intro j' hj'
      obtain ⟨x, hxa, hxe⟩ := hex j' (List.mem_cons_of_mem _ hj')
      refine ⟨_, List.mem_map_of_mem _ hxa, ?_⟩
      split_ifs with hcond
      · show (promoteJob now j).id = j'.id
        have hxj : x.id = j.id := by simpa using hcond
        rw [show (promoteJob now j).id = j.id from rfl, ← hxj]
        exact hxe
      · exact hxe

theorem process_retries_core (db : List Job) (now : Nat)
    (hnd : (db.map Job.id).Nodup) :
    (process_retries db now).1 =
      db.map (fun x => if retryablePred now x then promoteJob now x else x) ∧
    (process_retries db now).2 = (get_retryable_jobs db now).length := by
  constructor
  · have h1 := foldl_pair_fst_promote now (get_retryable_jobs db now) db 0
    rw [show (process_retries db now).1 =
        List.foldl (fun a j => save_job a (promoteJob now j)) db
          (get_retryable_jobs db now) from h1]
    rw [foldl_save_promote now (get_retryable_jobs db now) db (fun j hj =>
      ⟨j, (List.mem_filter.mp ((List.mem_insertionSort retryOrder).mp hj)).1, rfl⟩)]
    exact foldl_update_eq_map db (retryablePred now) (fun j _ => promoteJob now j)
      (fun j x h => by rw [show (promoteJob now j).id = j.id from rfl]; exact h.symm)
      hnd _ (List.perm_insertionSort retryOrder _)
  · have h2 := foldl_pair_cnt_promote now (get_retryable_jobs db now) db 0
    rw [show (process_retries db now).2 =
        0 + (get_retryable_jobs db now).length from h2]
    omega

theorem retryablePred_iff (now : Nat) (j : Job) :
    retryablePred now j = true ↔
      (j.state = JobState.failed ∧ ∃ t, j.nextRetryAt = some t ∧ t ≤ now) := by
  unfold retryablePred
  cases hr : j.nextRetryAt <;> simp [hr]

theorem staleProc_iff (now stale : Nat) (j : Job) :
    staleProc now stale j = true ↔
      (j.state = JobState.processing ∧ (j.updatedAt : Int) ≤ (now : Int) - (stale : Int)) := by
  unfold staleProc
  simp

/-- C6.  `process_retries` operates on exactly the retryable jobs —
failed jobs whose `next_retry_at` has passed, ordered by `next_retry_at`
ascending — flips each to pending with `next_retry_at` cleared and
`updated_at` bumped, preserves `attempts`, returns the number promoted,
and leaves every other job unchanged. -/
theorem promote_retries_spec (db : List Job) (now : Nat)
    (hnd : (db.map Job.id).Nodup) :
    (∀ j, j ∈ get_retryable_jobs db now ↔
      (j ∈ db ∧ j.state = JobState.failed ∧ ∃ t, j.nextRetryAt = some t ∧ t ≤ now)) ∧
    List.Sorted retryOrder (get_retryable_jobs db now) ∧
    (process_retries db now).2 = (get_retryable_jobs db now).length ∧
    (∀ jid x, get_job db jid = some x →
      (retryablePred now x = true →
        get_job (process_retries db now).1 jid = some (promoteJob now x) ∧
        (promoteJob now x).state = JobState.pending ∧
        (promoteJob now x).nextRetryAt = none ∧
        (promoteJob now x).attempts = x.attempts ∧
        (promoteJob now x).updatedAt = now) ∧
      (retryablePred now x = false →
        get_job (process_retries db now).1 jid = some x)) := by
  have hφ : ∀ x : Job,
      ((fun x => if retryablePred now x then promoteJob now x else x) x).id = x.id := by
    intro x
    simp only []
    split_ifs
    · rfl
    · rfl
  refine ⟨?_, List.sorted_insertionSort retryOrder _, (process_retries_core db now hnd).2, ?_⟩
  · intro j
    rw [show (j ∈ get_retryable_jobs db now) =
        (j ∈ List.insertionSort retryOrder (db.filter (retryablePred now))) from rfl,
      List.mem_insertionSort, List.mem_filter]
    constructor
    · rintro ⟨h1, h2⟩
      exact ⟨h1, (retryablePred_iff now j).mp h2⟩
    · rintro ⟨h1, h2⟩
      exact ⟨h1, (retryablePred_iff now j).mpr h2⟩
  · intro jid x hx
    have hmap := get_job_map db
      (fun x => if retryablePred now x then promoteJob now x else x) hφ jid
    constructor
    · intro hp
      refine ⟨?_, rfl, rfl, rfl, rfl⟩
      rw [(process_retries_core db now hnd).1, hmap, hx]
      simp [hp]
    · intro hp
      rw [(process_retries_core db now hnd).1, hmap, hx]
      simp [hp]

/-- A failed sample job due for retry. -/
def jobF : Job :=
  { job0 with id := "f", state := JobState.failed, attempts := 1, nextRetryAt := some 10 }

/-- The one-row store holding `jobF`. -/
def dbF : List Job := [jobF]

/-- Witness for C6 on a store with one due retryable job. -/
theorem promote_retries_spec_witness :
    ((dbF.map Job.id).Nodup) ∧
    (process_retries dbF 50).2 = (get_retryable_jobs dbF 50).length ∧
    get_job (process_retries dbF 50).1 "f" = some (promoteJob 50 jobF) := by
  have h := promote_retries_spec dbF 50 (by decide)
  exact ⟨by decide, h.2.2.1, ((h.2.2.2 "f" jobF (by decide)).1 (by decide)).1⟩

/-- A processing sample job with a stale `updated_at`. -/
def jobR : Job := { job0 with id := "r", state := JobState.processing, updatedAt := 0 }

/-- A pending (hence never reaped) sample job. -/
def jobQ : Job := { job0 with id := "q", state := JobState.pending }

/-- C3 counterexample.  The reaper stores the error message
`"Recovered from stale processing"` (capital R), not the
`"recovered from stale processing"` demanded by the claim. -/
theorem reaper_message_cex :
    ((get_job (reset_stale_processing_jobs [jobR] 1000 300).1 "r").map Job.errorMessage =
      some (some ("Recovered from stale processing".toList))) ∧
    ¬((get_job (reset_stale_processing_jobs [jobR] 1000 300).1 "r").map Job.errorMessage =
      some (some ("recovered from stale processing".toList))) :=
  ⟨by decide, by decide⟩

/-- C3 (amended).  The reaper resets exactly the processing rows whose
`updated_at` is at least `maxAge` seconds old back to pending,
preserving `attempts`, setting `error_message` to
`"Recovered from stale processing"` (capital R) only when absent and
keeping an existing message, returning the number of rows reset, and
leaving all other rows unchanged. -/
theorem reaper_reset_spec (db : List Job) (now stale : Nat)
    (hnd : (db.map Job.id).Nodup) :
    (reset_stale_processing_jobs db now stale).2 =
      (db.filter (staleProc now stale)).length ∧
    (∀ x ∈ db, staleProc now stale x = true ↔
      (x.state = JobState.processing ∧
        (x.updatedAt : Int) ≤ (now : Int) - (stale : Int))) ∧
    (∀ jid x, get_job db jid = some x →
      (staleProc now stale x = true →
        get_job (reset_stale_processing_jobs db now stale).1 jid =
          some (staleRecover now x) ∧
        (staleRecover now x).state = JobState.pending ∧
        (staleRecover now x).attempts = x.attempts ∧
        (x.errorMessage = none →
          (staleRecover now x).errorMessage =
            some ("Recovered from stale processing".toList)) ∧
        (∀ m, x.errorMessage = some m → (staleRecover now x).errorMessage = some m)) ∧
      (staleProc now stale x = false →
        get_job (reset_stale_processing_jobs db now stale).1 jid = some x)) := by
  have hφ : ∀ x : Job,
      ((fun x => if staleProc now stale x then staleRecover now x else x) x).id = x.id := by
    intro x
    simp only []
    split_ifs
    · rfl
    · rfl
  refine ⟨?_, fun x _ => staleProc_iff now stale x, ?_⟩
  · rw [reset_stale_core db now stale hnd]
  · intro jid x hx
    have hmap := get_job_map db
      (fun x => if staleProc now stale x then staleRecover now x else x) hφ jid
    have hfst : (reset_stale_processing_jobs db now stale).1 =
        db.map (fun x => if staleProc now stale x then staleRecover now x else x) := by
      rw [reset_stale_core db now stale hnd]
    constructor
    · intro hp
      refine ⟨?_, rfl, rfl, ?_, ?_⟩
      · rw [hfst, hmap, hx]
        simp [hp]
      · intro hm
        show some (x.errorMessage.getD ("Recovered from stale processing".toList)) = _
        rw [hm]
        rfl
      · intro m hm
        show some (x.errorMessage.getD ("Recovered from stale processing".toList)) = _
        rw [hm]
        rfl
    · intro hp
      rw [hfst, hmap, hx]
      simp [hp]

/-- The two-row store holding one stale-processing job and one pending
job. -/
def dbR : List Job := [jobR, jobQ]

/-- Witness for C3's amended theorem: the stale row is reset, the
pending row untouched, and the count is the number of stale rows. -/
theorem reaper_reset_spec_witness :
    ((dbR.map Job.id).Nodup) ∧
    (reset_stale_processing_jobs dbR 1000 300).2 =
      (dbR.filter (staleProc 1000 300)).length ∧
    get_job (reset_stale_processing_jobs dbR 1000 300).1 "r" =
      some (staleRecover 1000 jobR) ∧
    get_job (reset_stale_processing_jobs dbR 1000 300).1 "q" = some jobQ := by
  have h := reaper_reset_spec dbR 1000 300 (by decide)
  exact ⟨by decide, h.1, ((h.2.2 "r" jobR (by decide)).1 (by decide)).1,
    (h.2.2 "q" jobQ (by decide)).2 (by decide)⟩

theorem exec_attempts_ge (cfg : Config) (now : Nat) (j : Job) (out : ExecOutcome)
    (dur : Nat) : j.attempts ≤ (execute_job cfg now j out dur).2.attempts := by
  cases out with
  | exited c so se =>
      by_cases hc : c = 0
      · subst hc
        exact le_rfl
      · simp only [execute_job, if_neg hc]
        rw [(handle_job_failure_fields cfg now _ _).1]
        exact Nat.le_succ _
  | timedOut =>
      show j.attempts ≤ (handle_job_failure cfg now j (timeoutMsg (effTimeout cfg j))).attempts
      rw [(handle_job_failure_fields cfg now _ _).1]
      exact Nat.le_succ _
  | spawnFailed =>
      show j.attempts ≤ (handle_job_failure cfg now j ("Command not found".toList)).attempts
      rw [(handle_job_failure_fields cfg now _ _).1]
      exact Nat.le_succ _
  | raised msg =>
      show j.attempts ≤ (handle_job_failure cfg now j msg).attempts
      rw [(handle_job_failure_fields cfg now _ _).1]
      exact Nat.le_succ _

theorem retry_dlq_shape (db : List Job) (now : Nat) (jid : String) :
    retry_dlq_job db now jid = (false, db) ∨
    ∃ j, get_job db jid = some j ∧ j.state = JobState.dead ∧
      retry_dlq_job db now jid = (true, save_job db (dlqReset now j)) := by
  unfold retry_dlq_job
  cases hg : get_job db jid with
  | none => exact Or.inl rfl
  | some j =>
      by_cases hd : (j.state == JobState.dead) = true
      · refine Or.inr ⟨j, rfl, by simpa using hd, ?_⟩
        show (if (j.state == JobState.dead) = true
              then (true, save_job db (dlqReset now j)) else (false, db)) =
          (true, save_job db (dlqReset now j))
        rw [if_pos hd]
      · refine Or.inl ?_
        show (if (j.state == JobState.dead) = true
              then (true, save_job db (dlqReset now j)) else (false, db)) = (false, db)
        rw [if_neg hd]

theorem retry_dlq_success_eq (db : List Job) (now : Nat) (jid : String) (j : Job)
    (hg : get_job db jid = some j) (hd : j.state = JobState.dead) :
    retry_dlq_job db now jid = (true, save_job db (dlqReset now j)) := by
  unfold retry_dlq_job
  rw [hg]
  simp [hd]

/-- One store-mutating queue-manager operation other than the DLQ
requeue: enqueue (accepted or rejected), the atomic claim, executing a
job and saving its outcome (the executed job carries at least the
stored attempt count, as a freshly claimed job does), promotion of
retries, the reaper, and a failed DLQ requeue. -/
inductive QStep (now : Nat) (cfg : Config) : List Job → List Job → Prop where
  | enqueueOk : ∀ (db : List Job) (j : Job), get_job db j.id = none →
      QStep now cfg db (save_job db j)
  | enqueueDup : ∀ (db : List Job) (j e : Job), get_job db j.id = some e →
      QStep now cfg db db
  | claimNext : ∀ db : List Job, QStep now cfg db (get_pending_job db now).1
  | execSave : ∀ (db : List Job) (j : Job) (out : ExecOutcome) (dur : Nat),
      (∀ x, get_job db j.id = some x → x.attempts ≤ j.attempts) →
      QStep now cfg db (save_job db (execute_job cfg now j out dur).2)
  | promote : ∀ db : List Job, QStep now cfg db (process_retries db now).1
  | reap : ∀ (db : List Job) (stale : Nat),
      QStep now cfg db (reset_stale_processing_jobs db now stale).1
  | dlqMiss : ∀ (db : List Job) (jid : String), (retry_dlq_job db now jid).1 = false →
      QStep now cfg db (retry_dlq_job db now jid).2

/-- C9.  Across every queue-manager operation a stored job's `attempts`
never decreases; the single exception is a successful DLQ requeue, which
resets the requeued job's `attempts` to 0 and leaves every other job's
record untouched. -/
theorem attempts_monotone_spec :
    (∀ (now : Nat) (cfg : Config) (db db' : List Job), QStep now cfg db db' →
      (db.map Job.id).Nodup →
      ∀ jid x y, get_job db jid = some x → get_job db' jid = some y →
        x.attempts ≤ y.attempts) ∧
    (∀ (now : Nat) (db : List Job) (jid : String) (j : Job),
      get_job db jid = some j → j.state = JobState.dead →
      get_job (retry_dlq_job db now jid).2 jid = some (dlqReset now j) ∧
      (dlqReset now j).attempts = 0 ∧
      (∀ jid2, jid2 ≠ jid →
        get_job (retry_dlq_job db now jid).2 jid2 = get_job db jid2)) := by
  constructor
  · intro now cfg db db' hstep hnd jid x y hx hy
    cases hstep with
    | enqueueOk j h =>
        by_cases hj : jid = j.id
        · rw [hj, h] at hx
          cases hx
        · rw [get_job_save_job_ne db j jid hj, hx] at hy
          injection hy with he
          rw [he]
    | enqueueDup j e h =>
        rw [hx] at hy
        injection hy with he
        rw [he]
    | claimNext =>
        cases hsel : selectPendingRow db now with
        | none =>
            have hfst : (get_pending_job db now).1 = db := by
              unfold get_pending_job
              rw [hsel]
            rw [hfst, hx] at hy
            injection hy with he
            rw [he]
        | some row =>
            have hfst : (get_pending_job db now).1 =
                db.map (fun x => if x.id == row.id && x.state == JobState.pending
                                 then markProcessing now x else x) := by
              unfold get_pending_job
              rw [hsel]
              simp only [claimAfterSelect]
              split_ifs
              · rfl
              · rfl
            have hφ : ∀ z : Job,
                ((fun x => if x.id == row.id && x.state == JobState.pending
                           then markProcessing now x else x) z).id = z.id := by
              intro z
              simp only []
              split_ifs
              · rfl
              · rfl
            rw [hfst, get_job_map db _ hφ jid, hx] at hy
            injection hy with he
            rw [← he]
            simp only []
            split_ifs
            · exact le_rfl
            · exact le_rfl
    | execSave j out dur hxj =>
        by_cases hj : jid = j.id
        · have hyy : get_job (save_job db (execute_job cfg now j out dur).2) j.id =
              some (execute_job cfg now j out dur).2 := by
            rw [← execute_job_id cfg now j out dur]
            exact get_job_save_job_self db _
          rw [hj] at hy hx
          rw [hyy] at hy
          injection hy with he
          rw [← he]
          exact Nat.le_trans (hxj x hx) (exec_attempts_ge cfg now j out dur)
        · rw [get_job_save_job_ne db _ jid
              (by rw [execute_job_id cfg now j out dur]; exact hj), hx] at hy
          injection hy with he
          rw [he]
    | promote =>
        have hφ : ∀ z : Job,
            ((fun x => if retryablePred now x then promoteJob now x else x) z).id = z.id := by
          intro z
          simp only []
          split_ifs
          · rfl
          · rfl
        rw [(process_retries_core db now hnd).1, get_job_map db _ hφ jid, hx] at hy
        injection hy with he
        rw [← he]
        simp only []
        split_ifs
        · exact le_rfl
        · exact le_rfl
    | reap stale =>
        have hφ : ∀ z : Job,
            ((fun x => if staleProc now stale x then staleRecover now x else x) z).id = z.id := by
          intro z
          simp only []
          split_ifs
          · rfl
          · rfl
        have hfst : (reset_stale_processing_jobs db now stale).1 =
            db.map (fun x => if staleProc now stale x then staleRecover now x else x) := by
          rw [reset_stale_core db now stale hnd]
        rw [hfst, get_job_map db _ hφ jid, hx] at hy
        injection hy with he
        rw [← he]
        simp only []
        split_ifs
        · exact le_rfl
        · exact le_rfl
    | dlqMiss jid2 h =>
        rcases retry_dlq_shape db now jid2 with hsh | ⟨j, _, _, hsh⟩
        · rw [hsh, hx] at hy
          injection hy with he
          rw [he]
        · rw [hsh] at h
          simp at h
  · intro now db jid j hg hd
    have hr := retry_dlq_success_eq db now jid j hg hd
    have hid : j.id = jid := get_job_id_eq db jid j hg
    refine ⟨?_, rfl, ?_⟩
    · rw [hr]
      have hs := get_job_save_job_self db (dlqReset now j)
      rw [show (dlqReset now j).id = jid from hid] at hs
      exact hs
    · intro jid2 hne
      rw [hr]
      exact get_job_save_job_ne db _ jid2
        (by intro hh; exact hne (by rw [hh]; exact hid))

/-- Witness for C9 at a concrete promotion step. -/
theorem attempts_monotone_spec_witness :
    ((dbF.map Job.id).Nodup) ∧ get_job dbF "f" = some jobF ∧
    get_job (process_retries dbF 50).1 "f" = some (promoteJob 50 jobF) ∧
    jobF.attempts ≤ (promoteJob 50 jobF).attempts :=
  ⟨by decide, by decide, by decide,
    attempts_monotone_spec.1 50 cfg0 dbF _ (QStep.promote dbF) (by decide)
      "f" jobF (promoteJob 50 jobF) (by decide) (by decide)⟩

end QueueCTL
